import Mathlib

/-!
Verification development for `vcfdedup` (src/main.rs), a line-oriented
vCard deduplicator.  The Rust program is shallowly embedded below:

* a raw line is a `List Char` (the contents of one line of the input,
  without its terminating newline);
* `VcardEntry` and `Vcard` mirror the Rust structs of the same names;
  the Rust `HashSet<VcardEntry>` is modelled as a duplicate-free list in
  insertion order, and the Rust `HashMap<VcardEntry, Vcard>` as an
  association list in insertion order (a deterministic refinement of the
  hash containers);
* the recursive-descent parser (`Parser::parse` / `begin` / `version` /
  `end` / `entry`) advances a cursor over the line list and examines each
  line exactly once, so it is embedded as a state machine `parseLines`
  that consumes one line per step; the states correspond to the positions
  in the Rust control flow (`expectBegin` = top of `Parser::begin`,
  `expectVersion` = top of `Parser::version`, `inRecord` = the
  `while !self.end()? { self.entry()?; }` loop, with `cur` holding the
  entry whose continuation lines `Parser::entry` is still consuming);
* the Rust code indexes `self.lines[self.cur_idx]` without a bounds
  check, so running out of lines mid-record panics; this out-of-bounds
  panic is embedded as the distinguished outcome `PError.panic`, kept
  separate from the recoverable `PError.format` (`Error::Format`).
-/

namespace Vcfdedup

/-- Raw text line, as the character list of a Rust `String` line. -/
abbrev Line := List Char

/-- Rust `str::starts_with(c: char)`: the line begins with character `c`. -/
def startsWithChar (l : Line) (c : Char) : Bool :=
  match l with
  | [] => false
  | x :: _ => x == c

/-- Rust `str::starts_with(p: &str)`: the line begins with string `p`. -/
def startsWithStr (l : Line) (p : String) : Bool :=
  p.data.isPrefixOf l

/-- Rust struct `VcardEntry { lines: Vec<String> }`: one logical property,
a property line plus its folded continuation lines. -/
structure VcardEntry where
  lines : List Line
deriving DecidableEq, Repr

/-- Rust `HashSet::insert` on the insertion-ordered list model: a
byte-identical entry is ignored, a new entry is appended. -/
def insertEntry (cs : List VcardEntry) (e : VcardEntry) : List VcardEntry :=
  if e ∈ cs then cs else cs ++ [e]

/-- Rust struct `Vcard { version: String, content: HashSet<VcardEntry> }`. -/
structure Vcard where
  version : Line
  content : List VcardEntry
deriving DecidableEq, Repr

/-- Rust `Vcard::insert`. -/
def Vcard.insert (c : Vcard) (e : VcardEntry) : Vcard :=
  { c with content := insertEntry c.content e }

/-- Rust `Vcard::extend`: insert every entry of `other` into `c`. -/
def Vcard.extend (c other : Vcard) : Vcard :=
  { c with content := other.content.foldl insertEntry c.content }

/-- Rust `Vcard::get`: the first entry whose first line starts with `key`
(`e.lines[0].starts_with(key)`; parsed entries are never empty, an empty
entry matches nothing here where the Rust indexing would panic). -/
def Vcard.get (c : Vcard) (key : String) : Option VcardEntry :=
  c.content.find? (fun e => startsWithStr (e.lines.headD []) key)

/-- Rust `enum Error`'s `Format` variant, plus `panic`, the outcome of the
unchecked `self.lines[self.cur_idx]` index running out of bounds. -/
inductive PError where
  | format
  | panic
deriving DecidableEq, Repr

/-- Parser position in the Rust control flow: about to run `begin` /
about to run `version` / inside the entry loop of `vcard`, where `cur`
is the entry whose continuation lines `entry` is still consuming
(`none` right after the `VERSION:` line, before any entry line). -/
inductive PState where
  | expectBegin
  | expectVersion
  | inRecord (card : Vcard) (cur : Option VcardEntry)
deriving DecidableEq, Repr

/-- Completion of the pending entry: when `Parser::entry`'s continuation
loop stops, the accumulated entry is inserted into the current card. -/
def flushCur (card : Vcard) : Option VcardEntry → Vcard
  | some e => card.insert e
  | none => card

/-- Rust `VcardEntry::push` of line `l` onto the pending entry: `l`
becomes the property line of a fresh entry when none is pending. -/
def extendCur : Option VcardEntry → Line → VcardEntry
  | some e, l => ⟨e.lines ++ [l]⟩
  | none, l => ⟨[l]⟩

/-- Embedding of `Parser::parse`: one step per input line.  `cards` is
`self.cards`; the cursor is the list of not-yet-consumed lines.
Exhausting the lines anywhere except at an `expectBegin` boundary is the
out-of-bounds index panic of the Rust code. -/
def parseLines (cards : List Vcard) (st : PState) : List Line → Except PError (List Vcard)
  | [] =>
    match st with
    | .expectBegin => .ok cards
    | _ => .error .panic
  | l :: rest =>
    match st with
    | .expectBegin =>
      if l = "BEGIN:VCARD".data then parseLines cards .expectVersion rest
      else .error .format
    | .expectVersion =>
      if startsWithStr l "VERSION:" then
        parseLines cards (.inRecord ⟨l, []⟩ none) rest
      else .error .format
    | .inRecord card cur =>
      if l = "END:VCARD".data then
        parseLines (cards ++ [flushCur card cur]) .expectBegin rest
      else if startsWithChar l ' ' then
        parseLines cards (.inRecord card (some (extendCur cur l))) rest
      else
        parseLines cards (.inRecord (flushCur card cur) (some ⟨[l]⟩)) rest

/-- Full parse of a line list, from the initial parser state. -/
def parseAll (ls : List Line) : Except PError (List Vcard) :=
  parseLines [] .expectBegin ls

/-- Helper for `rustLines`: split a character list at newline characters
(accumulator holds the current line reversed). -/
def splitNl (cur : List Char) : List Char → List Line
  | [] => [cur.reverse]
  | c :: cs => if c = '\n' then cur.reverse :: splitNl [] cs else splitNl (c :: cur) cs

/-- Rust `str::lines` strips one trailing carriage return per line. -/
def stripCr (l : Line) : Line :=
  if l.getLast? = some '\r' then l.dropLast else l

/-- Rust `str::lines`: split at `'\n'`, drop the empty fragment produced
by a terminating newline (or empty input), strip trailing `'\r'`. -/
def rustLines (s : String) : List Line :=
  let parts := splitNl [] s.data
  let parts := if parts.getLast? = some [] then parts.dropLast else parts
  parts.map stripCr

/-- Parse an input string, as `Parser::new(input).parse()`. -/
def parse (s : String) : Except PError (List Vcard) :=
  parseAll (rustLines s)

/-- Rust `collection.entry(key).and_modify(|e| e.extend(&c)).or_insert(c)`
on the association-list model of `HashMap<VcardEntry, Vcard>`. -/
def dedupInsert (coll : List (VcardEntry × Vcard)) (key : VcardEntry) (c : Vcard) :
    List (VcardEntry × Vcard) :=
  if coll.any (fun p => decide (p.1 = key)) then
    coll.map (fun p => if p.1 = key then (p.1, p.2.extend c) else p)
  else
    coll ++ [(key, c)]

/-- Body of the dedup loop in `main` for one card: cards with no
`"N"`-prefixed entry are skipped. -/
def dedupStep (coll : List (VcardEntry × Vcard)) (c : Vcard) : List (VcardEntry × Vcard) :=
  match c.get "N" with
  | some name => dedupInsert coll name c
  | none => coll

/-- Dedup loop of `main` (src/main.rs lines 192-200). -/
def dedup (cards : List Vcard) : List (VcardEntry × Vcard) :=
  cards.foldl dedupStep []

/-- Parse then dedup, as `main` does. -/
def pipeline (s : String) : Except PError (List (VcardEntry × Vcard)) :=
  match parse s with
  | .ok cards => .ok (dedup cards)
  | .error e => .error e

/-- Output loop of `main` for one card: `BEGIN:VCARD`, the stored version
line, every line of every entry, `END:VCARD`. -/
def serializeRecord (c : Vcard) : List Line :=
  "BEGIN:VCARD".data :: c.version :: ((c.content.map VcardEntry.lines).flatten ++ ["END:VCARD".data])

/-- Output loop of `main` over a record list (src/main.rs lines 202-207). -/
def serialize (cs : List Vcard) : List Line :=
  (cs.map serializeRecord).flatten

/-- Decidable equality of parse results, so concrete runs can be checked. -/
instance {ε α : Type} [DecidableEq ε] [DecidableEq α] : DecidableEq (Except ε α) := fun a b =>
  match a, b with
  | .ok x, .ok y => if h : x = y then .isTrue (by rw [h]) else .isFalse (by simp [h])
  | .error x, .error y => if h : x = y then .isTrue (by rw [h]) else .isFalse (by simp [h])
  | .ok _, .error _ => .isFalse (by simp)
  | .error _, .ok _ => .isFalse (by simp)

/-- C1: parsing the two-record input and deduplicating yields exactly one
output record; its entry set contains both `["N:Doe"]` and `["TEL:123"]`,
and the shared `N:Doe` entry appears once. -/
theorem claim_C1 :
    ∃ key card,
      pipeline "BEGIN:VCARD\nVERSION:3.0\nN:Doe\nEND:VCARD\nBEGIN:VCARD\nVERSION:3.0\nN:Doe\nTEL:123\nEND:VCARD"
          = .ok [(key, card)] ∧
      ⟨["N:Doe".data]⟩ ∈ card.content ∧
      ⟨["TEL:123".data]⟩ ∈ card.content ∧
      card.content.count ⟨["N:Doe".data]⟩ = 1 :=
  ⟨⟨["N:Doe".data]⟩, ⟨"VERSION:3.0".data, [⟨["N:Doe".data]⟩, ⟨["TEL:123".data]⟩]⟩,
    by decide, by decide, by decide, by decide⟩

/-- C2, counterexample: a `BEGIN:VCARD` line occurring while a record is
open does not make parsing fail with a Format error; the input parses
successfully, the nested `BEGIN:VCARD` becoming an ordinary entry. -/
theorem claim_C2_cex :
    parse "BEGIN:VCARD\nVERSION:3.0\nBEGIN:VCARD\nEND:VCARD"
        = .ok [⟨"VERSION:3.0".data, [⟨["BEGIN:VCARD".data]⟩]⟩] ∧
    parse "BEGIN:VCARD\nVERSION:3.0\nBEGIN:VCARD\nEND:VCARD" ≠ .error PError.format :=
  ⟨by decide, by decide⟩

/-- C2, amended: while a record is open (entry-reading state), a
`BEGIN:VCARD` line is consumed as the property line of a new ordinary
entry — the pending entry is completed and a fresh entry is started — and
parsing continues; no Format error is raised at that line.  (The
record-already-open Format check inside `Parser::begin` exists but is
never reached, because `begin` only runs between records.) -/
theorem claim_C2_amended (cards : List Vcard) (card : Vcard) (cur : Option VcardEntry)
    (rest : List Line) :
    parseLines cards (.inRecord card cur) ("BEGIN:VCARD".data :: rest)
      = parseLines cards (.inRecord (flushCur card cur) (some ⟨["BEGIN:VCARD".data]⟩)) rest := by
  rw [parseLines]
  rw [if_neg (by decide), if_neg (by decide)]

/-- C3, counterexample: a line starting with a tab is not treated as a
continuation of the current entry; it starts a new entry instead. -/
theorem claim_C3_cex :
    parse "BEGIN:VCARD\nVERSION:3.0\nA:1\n\tx\nEND:VCARD"
        = .ok [⟨"VERSION:3.0".data, [⟨["A:1".data]⟩, ⟨["\tx".data]⟩]⟩] ∧
    parse "BEGIN:VCARD\nVERSION:3.0\nA:1\n\tx\nEND:VCARD"
        ≠ .ok [⟨"VERSION:3.0".data, [⟨["A:1".data, "\tx".data]⟩]⟩] :=
  ⟨by decide, by decide⟩

/-- C3, amended: while reading entries, a subsequent line is treated as a
continuation of the current entry exactly when it starts with the space
character `' '`; a line starting with any other character (in particular
a tab) starts a new entry.  Shown on the record body `A:1` followed by a
line `t`: if `t` starts with a space the record has the single folded
entry `["A:1", t]`, and otherwise it has the two entries `["A:1"]` and
`[t]`. -/
theorem claim_C3_amended (t : Line) :
    (startsWithChar t ' ' = true →
      parseAll ["BEGIN:VCARD".data, "VERSION:3.0".data, "A:1".data, t, "END:VCARD".data]
          = .ok [⟨"VERSION:3.0".data, [⟨["A:1".data, t]⟩]⟩]) ∧
    (startsWithChar t ' ' = false → t ≠ "END:VCARD".data → t ≠ "A:1".data →
      parseAll ["BEGIN:VCARD".data, "VERSION:3.0".data, "A:1".data, t, "END:VCARD".data]
          = .ok [⟨"VERSION:3.0".data, [⟨["A:1".data]⟩, ⟨[t]⟩]⟩]) := by
  constructor
  · intro hsp
    have hne : t ≠ "END:VCARD".data := by
      intro h; rw [h] at hsp; exact absurd hsp (by decide)
    rw [parseAll, parseLines, if_pos (by decide), parseLines, if_pos (by decide),
      parseLines, if_neg (by decide), if_neg (by decide),
      parseLines, if_neg hne, if_pos hsp,
      parseLines, if_pos (by decide)]
    rfl
  · intro hsp hne hna
    rw [parseAll, parseLines, if_pos (by decide), parseLines, if_pos (by decide),
      parseLines, if_neg (by decide), if_neg (by decide),
      parseLines, if_neg hne, if_neg (by simp [hsp]),
      parseLines, if_pos (by decide)]
    simp [parseLines, flushCur, Vcard.insert, insertEntry, extendCur, hna]

/-- C3, witness for the amended theorem: a space-led line ` x` folds into
the entry `["A:1", " x"]`, while a tab-led line `\tx` starts the separate
entry `["\tx"]`. -/
theorem claim_C3_witness :
    parseAll ["BEGIN:VCARD".data, "VERSION:3.0".data, "A:1".data, " x".data, "END:VCARD".data]
        = .ok [⟨"VERSION:3.0".data, [⟨["A:1".data, " x".data]⟩]⟩] ∧
    parseAll ["BEGIN:VCARD".data, "VERSION:3.0".data, "A:1".data, "\tx".data, "END:VCARD".data]
        = .ok [⟨"VERSION:3.0".data, [⟨["A:1".data]⟩, ⟨["\tx".data]⟩]⟩] :=
  ⟨(claim_C3_amended (" x".data)).1 (by decide),
    (claim_C3_amended ("\tx".data)).2 (by decide) (by decide) (by decide)⟩

/-- C4, counterexample: on input truncated before the required
`END:VCARD`, parsing takes the out-of-bounds line access (the panic
outcome), not a recoverable Format error. -/
theorem claim_C4_cex :
    parse "BEGIN:VCARD\nVERSION:3.0\nN:Doe" = .error PError.panic ∧
    parse "BEGIN:VCARD\nVERSION:3.0\nN:Doe" ≠ .error PError.format :=
  ⟨by decide, by decide⟩

/-- C4, amended: reaching end-of-input mid-record — while reading entries
or continuation lines (`inRecord`, whatever the pending entry), or before
the required `VERSION:` line — takes the out-of-bounds line access,
modelled as the panic outcome, rather than returning a Format error. -/
theorem claim_C4_amended (cards : List Vcard) (card : Vcard) (cur : Option VcardEntry) :
    parseLines cards (.inRecord card cur) [] = .error PError.panic ∧
    parseLines cards .expectVersion [] = .error PError.panic :=
  ⟨rfl, rfl⟩

/-- C5: a parsed record with no entry whose first line starts with `N`
contributes nothing to the deduplicated output: removing it from the
card sequence leaves the resulting collection unchanged. -/
theorem claim_C5 (c : Vcard) (h : c.get "N" = none) (xs ys : List Vcard) :
    dedup (xs ++ c :: ys) = dedup (xs ++ ys) := by
  unfold dedup
  rw [List.foldl_append, List.foldl_append, List.foldl_cons]
  have hstep : dedupStep (List.foldl dedupStep [] xs) c = List.foldl dedupStep [] xs := by
    simp [dedupStep, h]
  rw [hstep]

/-- C5, witness: a record holding only a `TEL:` entry is dropped from the
collection. -/
theorem claim_C5_witness :
    Vcard.get ⟨"VERSION:3.0".data, [⟨["TEL:9".data]⟩]⟩ "N" = none ∧
    dedup ([] ++ ⟨"VERSION:3.0".data, [⟨["TEL:9".data]⟩]⟩ ::
        [⟨"VERSION:2.1".data, [⟨["N:a".data]⟩]⟩])
      = dedup ([] ++ [⟨"VERSION:2.1".data, [⟨["N:a".data]⟩]⟩]) :=
  ⟨by decide, claim_C5 _ (by decide) [] _⟩

/-- Association-list lookup, the observation function for the
`HashMap<VcardEntry, Vcard>` model. -/
def lookupKey : List (VcardEntry × Vcard) → VcardEntry → Option Vcard
  | [], _ => none
  | p :: ps, key => if p.1 = key then some p.2 else lookupKey ps key

/-- Extending a card never changes its version line. -/
theorem extend_version (a b : Vcard) : (a.extend b).version = a.version := rfl

/-- Lookup commutes with the value-modifying map of `dedupInsert` when the
looked-up key differs from the modified one. -/
theorem lookupKey_modify (coll : List (VcardEntry × Vcard)) (key key' : VcardEntry)
    (c : Vcard) (h : key' ≠ key) :
    lookupKey (coll.map (fun p => if p.1 = key then (p.1, p.2.extend c) else p)) key'
      = lookupKey coll key' := by
  induction coll with
  | nil => rfl
  | cons p ps ih =>
    have hfst : (if p.1 = key then (p.1, p.2.extend c) else p).1 = p.1 := by
      split <;> rfl
    by_cases hq : p.1 = key'
    · have hpk : p.1 ≠ key := fun hp => h (by rw [← hq, hp])
      simp only [List.map_cons, if_neg hpk, lookupKey, if_pos hq]
    · simp only [List.map_cons, lookupKey, hfst, if_neg hq]
      exact ih

/-- Lookup ignores a freshly appended pair under a different key. -/
theorem lookupKey_append_ne (coll : List (VcardEntry × Vcard)) (key key' : VcardEntry)
    (c : Vcard) (h : key' ≠ key) :
    lookupKey (coll ++ [(key, c)]) key' = lookupKey coll key' := by
  induction coll with
  | nil =>
    simp only [List.nil_append, lookupKey]
    rw [if_neg (fun hk : key = key' => h hk.symm)]
  | cons p ps ih =>
    simp only [List.cons_append, lookupKey]
    split
    · rfl
    · exact ih

/-- Lookup under a different key is unchanged by `dedupInsert`. -/
theorem lookupKey_dedupInsert_ne (coll : List (VcardEntry × Vcard)) (key key' : VcardEntry)
    (c : Vcard) (h : key' ≠ key) :
    lookupKey (dedupInsert coll key c) key' = lookupKey coll key' := by
  unfold dedupInsert
  split
  · exact lookupKey_modify coll key key' c h
  · exact lookupKey_append_ne coll key key' c h

/-- Lookup after `dedupInsert` under a key already present: the stored
card is extended, nothing else. -/
theorem lookupKey_dedupInsert_present (coll : List (VcardEntry × Vcard)) (key : VcardEntry)
    (c r0 : Vcard) (h : lookupKey coll key = some r0) :
    lookupKey (dedupInsert coll key c) key = some (r0.extend c) := by
  have hany : coll.any (fun p => decide (p.1 = key)) = true := by
    induction coll with
    | nil => exact absurd h (by simp [lookupKey])
    | cons p ps ih =>
      rw [lookupKey] at h
      simp only [List.any_cons]
      by_cases hp : p.1 = key
      · simp [hp]
      · rw [if_neg hp] at h
        simp [ih h]
  unfold dedupInsert
  rw [if_pos hany]
  clear hany
  induction coll with
  | nil => exact absurd h (by simp [lookupKey])
  | cons p ps ih =>
    rw [lookupKey] at h
    by_cases hp : p.1 = key
    · rw [if_pos hp] at h
      injection h with h
      simp only [List.map_cons, if_pos hp, lookupKey, if_pos hp, h]
    · rw [if_neg hp] at h
      simp only [List.map_cons, if_neg hp, lookupKey, if_neg hp]
      exact ih h

/-- Missing key: `dedupInsert` appends the new pair verbatim. -/
theorem dedupInsert_absent_eq (coll : List (VcardEntry × Vcard)) (key : VcardEntry)
    (c : Vcard) (h : lookupKey coll key = none) :
    dedupInsert coll key c = coll ++ [(key, c)] := by
  have hany : coll.any (fun p => decide (p.1 = key)) = false := by
    induction coll with
    | nil => rfl
    | cons p ps ih =>
      rw [lookupKey] at h
      by_cases hp : p.1 = key
      · rw [if_pos hp] at h; cases h
      · rw [if_neg hp] at h
        simp [hp, ih h]
  unfold dedupInsert
  rw [if_neg (by rw [hany]; exact Bool.false_ne_true)]

/-- Lookup after `dedupInsert` under a key not yet present finds the new
card verbatim. -/
theorem lookupKey_dedupInsert_absent (coll : List (VcardEntry × Vcard)) (key : VcardEntry)
    (c : Vcard) (h : lookupKey coll key = none) :
    lookupKey (dedupInsert coll key c) key = some c := by
  rw [dedupInsert_absent_eq coll key c h]
  induction coll with
  | nil => simp [lookupKey]
  | cons p ps ih =>
    rw [lookupKey] at h
    by_cases hp : p.1 = key
    · rw [if_pos hp] at h; cases h
    · rw [if_neg hp] at h
      simp only [List.cons_append, lookupKey, if_neg hp]
      exact ih h

/-- Through the whole dedup fold, the card stored under a key carries the
version of the first card that produced that key. -/
theorem dedup_version_aux (cards : List Vcard) :
    ∀ (coll : List (VcardEntry × Vcard)) (key : VcardEntry) (r : Vcard),
    lookupKey (List.foldl dedupStep coll cards) key = some r →
    (∃ r0, lookupKey coll key = some r0 ∧ r.version = r0.version) ∨
    (lookupKey coll key = none ∧
      ∃ c, cards.find? (fun c => decide (c.get "N" = some key)) = some c ∧
        r.version = c.version) := by
  induction cards with
  | nil =>
    intro coll key r h
    exact .inl ⟨r, h, rfl⟩
  | cons c cards ih =>
    intro coll key r h
    rw [List.foldl_cons] at h
    cases hc : c.get "N" with
    | none =>
      rw [show dedupStep coll c = coll by simp [dedupStep, hc]] at h
      rcases ih coll key r h with h1 | ⟨h1, c', hf, hv⟩
      · exact .inl h1
      · refine .inr ⟨h1, c', ?_, hv⟩
        rw [List.find?_cons_of_neg _ (by simp [hc])]
        exact hf
    | some k =>
      rw [show dedupStep coll c = dedupInsert coll k c by simp [dedupStep, hc]] at h
      by_cases hk : k = key
      · subst hk
        cases hl : lookupKey coll k with
        | some r0 =>
          have hpres := lookupKey_dedupInsert_present coll k c r0 hl
          rcases ih (dedupInsert coll k c) k r h with ⟨r1, h1, hv⟩ | ⟨h1, _⟩
          · rw [hpres] at h1
            injection h1 with h1
            refine .inl ⟨r0, rfl, ?_⟩
            rw [hv, ← h1, extend_version]
          · rw [hpres] at h1; cases h1
        | none =>
          have habs := lookupKey_dedupInsert_absent coll k c hl
          rcases ih (dedupInsert coll k c) k r h with ⟨r1, h1, hv⟩ | ⟨h1, _⟩
          · rw [habs] at h1
            injection h1 with h1
            refine .inr ⟨rfl, c, ?_, by rw [hv, ← h1]⟩
            rw [List.find?_cons_of_pos _ (by simp [hc])]
          · rw [habs] at h1; cases h1
      · have hlk := lookupKey_dedupInsert_ne coll k key c (fun he => hk he.symm)
        rcases ih (dedupInsert coll k c) key r h with ⟨r1, h1, hv⟩ | ⟨h1, c', hf, hv⟩
        · rw [hlk] at h1
          exact .inl ⟨r1, h1, hv⟩
        · rw [hlk] at h1
          refine .inr ⟨h1, c', ?_, hv⟩
          rw [List.find?_cons_of_neg _ (by simp [hc, hk])]
          exact hf

/-- C6: a merge only unions entry sets; the version line never changes
(`extend` preserves it), so the card stored under each key in the dedup
output carries the version of the first-seen card with that key. -/
theorem claim_C6 :
    (∀ a b : Vcard, (a.extend b).version = a.version) ∧
    ∀ (cards : List Vcard) (key : VcardEntry) (r : Vcard),
      lookupKey (dedup cards) key = some r →
      ∃ c, cards.find? (fun c => decide (c.get "N" = some key)) = some c ∧
        r.version = c.version := by
  refine ⟨fun a b => rfl, fun cards key r h => ?_⟩
  rcases dedup_version_aux cards [] key r h with ⟨r0, h0, _⟩ | ⟨_, c, hf, hv⟩
  · exact absurd h0 (by simp [lookupKey])
  · exact ⟨c, hf, hv⟩

/-- C6, witness: two cards share the key `N:a`; the merged card keeps the
first card's `VERSION:2.1` line while the second card's `VERSION:3.0` is
discarded. -/
theorem claim_C6_witness :
    ∃ c, List.find? (fun c => decide (Vcard.get c "N" = some ⟨["N:a".data]⟩))
        [⟨"VERSION:2.1".data, [⟨["N:a".data]⟩]⟩,
          ⟨"VERSION:3.0".data, [⟨["N:a".data]⟩, ⟨["TEL:1".data]⟩]⟩] = some c ∧
      (⟨"VERSION:2.1".data, [⟨["N:a".data]⟩, ⟨["TEL:1".data]⟩]⟩ : Vcard).version = c.version :=
  claim_C6.2
    [⟨"VERSION:2.1".data, [⟨["N:a".data]⟩]⟩,
      ⟨"VERSION:3.0".data, [⟨["N:a".data]⟩, ⟨["TEL:1".data]⟩]⟩]
    ⟨["N:a".data]⟩ ⟨"VERSION:2.1".data, [⟨["N:a".data]⟩, ⟨["TEL:1".data]⟩]⟩ (by decide)

/-- Entry search is stable under inserting further entries: `extend` only
appends missing entries, so an already found entry is still the first
match. -/
theorem find?_foldl_insertEntry (p : VcardEntry → Bool) (es : List VcardEntry) :
    ∀ (cs : List VcardEntry) (x : VcardEntry), cs.find? p = some x →
    (es.foldl insertEntry cs).find? p = some x := by
  induction es with
  | nil => intro cs x h; exact h
  | cons e es ih =>
    intro cs x h
    rw [List.foldl_cons]
    apply ih
    unfold insertEntry
    split
    · exact h
    · rw [List.find?_append, h]
      rfl

/-- Merging does not change which entry the merge-key lookup finds. -/
theorem getN_extend (r c : Vcard) (k : VcardEntry) (h : r.get "N" = some k) :
    (r.extend c).get "N" = some k := by
  simp only [Vcard.get, Vcard.extend] at *
  exact find?_foldl_insertEntry _ _ _ _ h

/-- Every card stored in the dedup collection is stored under its own
merge key. -/
theorem dedup_inv_key (cards : List Vcard) :
    ∀ (coll : List (VcardEntry × Vcard)),
    (∀ p ∈ coll, p.2.get "N" = some p.1) →
    ∀ p ∈ List.foldl dedupStep coll cards, p.2.get "N" = some p.1 := by
  induction cards with
  | nil => intro coll h; exact h
  | cons c cards ih =>
    intro coll h
    rw [List.foldl_cons]
    apply ih
    cases hc : c.get "N" with
    | none =>
      rw [show dedupStep coll c = coll by simp [dedupStep, hc]]
      exact h
    | some k =>
      rw [show dedupStep coll c = dedupInsert coll k c by simp [dedupStep, hc]]
      unfold dedupInsert
      split
      · intro p hp
        rw [List.mem_map] at hp
        obtain ⟨q, hq, hpq⟩ := hp
        by_cases hqk : q.1 = k
        · rw [← hpq, if_pos hqk]
          exact getN_extend q.2 c q.1 (h q hq)
        · rw [← hpq, if_neg hqk]
          exact h q hq
      · intro p hp
        rw [List.mem_append] at hp
        rcases hp with hp | hp
        · exact h p hp
        · rw [List.mem_singleton] at hp
          rw [hp]
          exact hc

/-- One dedup step keeps the stored keys distinct. -/
theorem keys_dedupStep_nodup (coll : List (VcardEntry × Vcard)) (c : Vcard)
    (h : (coll.map Prod.fst).Nodup) : ((dedupStep coll c).map Prod.fst).Nodup := by
  cases hc : c.get "N" with
  | none => simpa [dedupStep, hc] using h
  | some k =>
    rw [show dedupStep coll c = dedupInsert coll k c by simp [dedupStep, hc]]
    unfold dedupInsert
    split
    · have hm : (coll.map (fun p => if p.1 = k then (p.1, p.2.extend c) else p)).map Prod.fst
          = coll.map Prod.fst := by
        rw [List.map_map]
        apply List.map_congr_left
        intro p _
        by_cases hp : p.1 = k <;> simp [hp]
      rw [hm]
      exact h
    · rename_i hany
      rw [Bool.not_eq_true, List.any_eq_false] at hany
      rw [List.map_append, List.nodup_append]
      refine ⟨h, by simp, fun a ha hb => ?_⟩
      rw [List.mem_map] at ha
      obtain ⟨p, hp, hpa⟩ := ha
      rw [show ([(k, c)].map Prod.fst) = [k] from rfl, List.mem_singleton] at hb
      exact absurd (decide_eq_true (by rw [hpa, hb])) (hany p hp)

/-- The dedup fold keeps the stored keys distinct. -/
theorem dedup_keys_nodup (cards : List Vcard) :
    ∀ coll, ((coll.map Prod.fst).Nodup) →
    ((List.foldl dedupStep coll cards).map Prod.fst).Nodup := by
  induction cards with
  | nil => intro coll h; exact h
  | cons c cards ih =>
    intro coll h
    rw [List.foldl_cons]
    exact ih _ (keys_dedupStep_nodup coll c h)

/-- Lookup misses every key that is not among the stored keys. -/
theorem lookupKey_eq_none (coll : List (VcardEntry × Vcard)) (key : VcardEntry)
    (h : key ∉ coll.map Prod.fst) : lookupKey coll key = none := by
  induction coll with
  | nil => rfl
  | cons p ps ih =>
    rw [List.map_cons] at h
    rw [lookupKey, if_neg (fun hp => h (by rw [← hp]; exact List.mem_cons_self _ _))]
    exact ih (fun hm => h (List.mem_cons_of_mem _ hm))

/-- Replaying a collection whose cards sit under their own pairwise
distinct keys reproduces the collection. -/
theorem dedup_map_snd (coll : List (VcardEntry × Vcard)) :
    ∀ (acc : List (VcardEntry × Vcard)),
    (∀ p ∈ coll, p.2.get "N" = some p.1) →
    (((acc ++ coll).map Prod.fst).Nodup) →
    List.foldl dedupStep acc (coll.map Prod.snd) = acc ++ coll := by
  induction coll with
  | nil =>
    intro acc _ _
    simp
  | cons p coll ih =>
    intro acc h hnd
    obtain ⟨k, r⟩ := p
    rw [List.map_cons, List.foldl_cons]
    have hk : r.get "N" = some k := h (k, r) (List.mem_cons_self _ _)
    have hknotin : k ∉ acc.map Prod.fst := by
      rw [List.map_append, List.nodup_append] at hnd
      intro hkin
      exact hnd.2.2 hkin (by simp)
    have hstep : dedupStep acc r = acc ++ [(k, r)] := by
      rw [show dedupStep acc r = dedupInsert acc k r by simp [dedupStep, hk]]
      exact dedupInsert_absent_eq _ _ _ (lookupKey_eq_none _ _ hknotin)
    rw [hstep]
    have hrec := ih (acc ++ [(k, r)]) (fun q hq => h q (List.mem_cons_of_mem _ hq))
      (by rw [List.append_assoc, List.singleton_append]; exact hnd)
    rw [hrec, List.append_assoc, List.singleton_append]

/-- C7: deduplication is idempotent — feeding the cards of the
deduplicated collection through deduplication again yields the same
collection, with the same keys, versions and entry sets. -/
theorem claim_C7 (cards : List Vcard) :
    dedup ((dedup cards).map Prod.snd) = dedup cards := by
  have h1 : ∀ p ∈ dedup cards, p.2.get "N" = some p.1 :=
    dedup_inv_key cards [] (fun p hp => absurd hp (List.not_mem_nil p))
  have h2 : ((dedup cards).map Prod.fst).Nodup :=
    dedup_keys_nodup cards [] (by simp)
  have h3 := dedup_map_snd (dedup cards) [] h1 (by simpa using h2)
  simpa [dedup] using h3

/-- Shape invariant of a parsed entry: nonempty, its property line is not
the record terminator, and all its continuation lines are space-folded. -/
def entryWf (e : VcardEntry) : Bool :=
  decide (e.lines ≠ []) &&
  decide (e.lines.headD [] ≠ "END:VCARD".data) &&
  (e.lines.drop 1).all (fun x => startsWithChar x ' ')

/-- Whether an entry's property line does not begin with a space. -/
def headNonSpace (e : VcardEntry) : Bool :=
  !(startsWithChar (e.lines.headD []) ' ')

/-- Shape invariant of a parsed record: version line verbatim from a
`VERSION:` match, well-formed entries with no duplicates, and only the
first entry's property line possibly space-led. -/
def recordWf (r : Vcard) : Bool :=
  startsWithStr r.version "VERSION:" &&
  r.content.all entryWf &&
  (r.content.drop 1).all headNonSpace &&
  decide r.content.Nodup

/-- Space-led lines are never the record terminator. -/
theorem space_ne_end (l : Line) (h : startsWithChar l ' ' = true) :
    l ≠ "END:VCARD".data := by
  intro he
  rw [he] at h
  exact absurd h (by decide)

/-- Replaying space-led continuation lines extends the pending entry with
exactly those lines. -/
theorem parse_conts (cs : List Line) :
    ∀ (cards : List Vcard) (card : Vcard) (e : VcardEntry) (rest : List Line),
    cs.all (fun x => startsWithChar x ' ') = true →
    parseLines cards (.inRecord card (some e)) (cs ++ rest)
      = parseLines cards (.inRecord card (some ⟨e.lines ++ cs⟩)) rest := by
  induction cs with
  | nil =>
    intro cards card e rest _
    rw [List.nil_append, List.append_nil]
  | cons l cs ih =>
    intro cards card e rest hall
    rw [List.all_cons, Bool.and_eq_true] at hall
    obtain ⟨hl, hcs⟩ := hall
    rw [List.cons_append, parseLines, if_neg (space_ne_end l hl), if_pos hl]
    rw [show extendCur (some e) l = ⟨e.lines ++ [l]⟩ from rfl]
    rw [ih cards card ⟨e.lines ++ [l]⟩ rest hcs]
    rw [List.append_assoc, List.singleton_append]

/-- Replaying the serialized lines of well-formed entries inserts exactly
those entries (after completing any pending one) and stops at the record
terminator. -/
theorem parse_serialize_entries (es : List VcardEntry) :
    ∀ (cards : List Vcard) (card : Vcard) (cur : Option VcardEntry) (rest : List Line),
    es.all entryWf = true →
    (es.drop 1).all headNonSpace = true →
    (cur.isSome = true → (es.take 1).all headNonSpace = true) →
    parseLines cards (.inRecord card cur)
        ((es.map VcardEntry.lines).flatten ++ "END:VCARD".data :: rest)
      = parseLines (cards ++ [es.foldl Vcard.insert (flushCur card cur)]) .expectBegin rest := by
  induction es with
  | nil =>
    intro cards card cur rest _ _ _
    rw [List.map_nil, List.flatten_nil, List.nil_append, parseLines, if_pos rfl]
    rfl
  | cons e es ih =>
    intro cards card cur rest hwf htl hcur
    rw [List.all_cons, Bool.and_eq_true] at hwf
    obtain ⟨hewf, heswf⟩ := hwf
    obtain ⟨elines⟩ := e
    cases elines with
    | nil => exact absurd hewf (by simp [entryWf])
    | cons l conts =>
      rw [entryWf, Bool.and_eq_true, Bool.and_eq_true, decide_eq_true_eq, decide_eq_true_eq]
        at hewf
      obtain ⟨⟨-, hlne⟩, hconts⟩ := hewf
      have hlne : l ≠ "END:VCARD".data := hlne
      have hconts : conts.all (fun x => startsWithChar x ' ') = true := hconts
      have htl' : (es.drop 1).all headNonSpace = true := by
        rw [List.all_eq_true] at htl ⊢
        exact fun x hx => htl x (List.drop_subset _ _ hx)
      have hes : es.all headNonSpace = true := htl
      have hcur' : ∀ c0 : Vcard, (some (⟨l :: conts⟩ : VcardEntry)).isSome = true →
          (es.take 1).all headNonSpace = true := by
        intro _ _
        rw [List.all_eq_true] at hes ⊢
        exact fun x hx => hes x (List.take_subset _ _ hx)
      rw [List.map_cons, List.flatten_cons]
      rw [show ((⟨l :: conts⟩ : VcardEntry).lines : List Line) = l :: conts from rfl]
      rw [List.append_assoc, List.cons_append, parseLines, if_neg hlne]
      by_cases hsp : startsWithChar l ' ' = true
      · have hcurn : cur = none := by
          cases cur with
          | none => rfl
          | some e0 =>
            have h1 := hcur rfl
            rw [show ((⟨l :: conts⟩ : VcardEntry) :: es).take 1 = [⟨l :: conts⟩] from rfl] at h1
            simp [headNonSpace, hsp] at h1
        subst hcurn
        rw [if_pos hsp]
        rw [show extendCur none l = ⟨[l]⟩ from rfl]
        rw [parse_conts conts cards card ⟨[l]⟩ _ hconts]
        rw [List.singleton_append]
        rw [ih cards card (some ⟨l :: conts⟩) rest heswf htl' (hcur' card)]
        rfl
      · rw [if_neg hsp]
        rw [parse_conts conts cards (flushCur card cur) ⟨[l]⟩ _ hconts]
        rw [List.singleton_append]
        rw [ih cards (flushCur card cur) (some ⟨l :: conts⟩) rest heswf htl' (hcur' card)]
        rfl

/-- Folding `Vcard.insert` only touches the content component. -/
theorem foldl_vinsert (es : List VcardEntry) :
    ∀ (v : Line) (cs : List VcardEntry),
    es.foldl Vcard.insert ⟨v, cs⟩ = ⟨v, es.foldl insertEntry cs⟩ := by
  induction es with
  | nil => intro v cs; rfl
  | cons e es ih =>
    intro v cs
    rw [List.foldl_cons, List.foldl_cons]
    exact ih v (insertEntry cs e)

/-- Inserting pairwise distinct entries not yet present just appends
them. -/
theorem foldl_insertEntry_nodup (es : List VcardEntry) :
    ∀ (acc : List VcardEntry), es.Nodup → (∀ e ∈ es, e ∉ acc) →
    es.foldl insertEntry acc = acc ++ es := by
  induction es with
  | nil => intro acc _ _; simp
  | cons e es ih =>
    intro acc hnd hdisj
    rw [List.nodup_cons] at hnd
    rw [List.foldl_cons,
      show insertEntry acc e = acc ++ [e] by
        rw [insertEntry, if_neg (hdisj e (List.mem_cons_self _ _))]]
    rw [ih (acc ++ [e]) hnd.2 ?_]
    · rw [List.append_assoc, List.singleton_append]
    · intro x hx
      rw [List.mem_append, List.mem_singleton]
      rintro (hxa | hxe)
      · exact hdisj x (List.mem_cons_of_mem _ hx) hxa
      · exact hnd.1 (hxe ▸ hx)

/-- Replaying the serialization of one well-formed record appends exactly
that record and returns to the record boundary. -/
theorem parse_serialize_record (r : Vcard) (cards : List Vcard) (rest : List Line)
    (h : recordWf r = true) :
    parseLines cards .expectBegin (serializeRecord r ++ rest)
      = parseLines (cards ++ [r]) .expectBegin rest := by
  rw [recordWf, Bool.and_eq_true, Bool.and_eq_true, Bool.and_eq_true] at h
  obtain ⟨⟨⟨hv, hall⟩, hdrop⟩, hnd⟩ := h
  rw [serializeRecord, List.cons_append, List.cons_append, parseLines, if_pos rfl,
    parseLines, if_pos hv]
  rw [List.append_assoc, List.singleton_append]
  rw [parse_serialize_entries r.content cards ⟨r.version, []⟩ none rest hall hdrop
    (fun hco => absurd hco (by simp))]
  have hrc : r.content.foldl Vcard.insert (⟨r.version, []⟩ : Vcard) = r := by
    rw [foldl_vinsert,
      foldl_insertEntry_nodup r.content [] (of_decide_eq_true hnd) (fun e _ => List.not_mem_nil e),
      List.nil_append]
  rw [show flushCur ⟨r.version, []⟩ none = (⟨r.version, []⟩ : Vcard) from rfl, hrc]

/-- Replaying the serialization of well-formed records appends exactly
those records. -/
theorem parse_serialize_all (rs : List Vcard) :
    ∀ (cards : List Vcard), rs.all recordWf = true →
    parseLines cards .expectBegin (serialize rs) = .ok (cards ++ rs) := by
  induction rs with
  | nil =>
    intro cards _
    rw [serialize, List.map_nil, List.flatten_nil, parseLines, List.append_nil]
  | cons r rs ih =>
    intro cards hall
    rw [List.all_cons, Bool.and_eq_true] at hall
    rw [serialize, List.map_cons, List.flatten_cons,
      parse_serialize_record r cards _ hall.1,
      show ((rs.map serializeRecord).flatten : List Line) = serialize rs from rfl,
      ih (cards ++ [r]) hall.2, List.append_assoc, List.singleton_append]

/-- Invariant the parser maintains on its state: the in-progress card is
a well-formed record prefix, and the pending entry is well formed, its
property line space-led only when the card's entry set is still empty. -/
def stWf : PState → Bool
  | .expectBegin => true
  | .expectVersion => true
  | .inRecord card cur =>
      recordWf card &&
      (match cur with
        | some e => entryWf e && (decide (card.content = []) || headNonSpace e)
        | none => decide (card.content = []))

/-- Completing the pending entry of a well-formed parser state yields a
well-formed record. -/
theorem flushCur_wf (card : Vcard) (cur : Option VcardEntry)
    (h : stWf (.inRecord card cur) = true) : recordWf (flushCur card cur) = true := by
  cases cur with
  | none =>
    rw [stWf, Bool.and_eq_true] at h
    exact h.1
  | some e =>
    rw [stWf, Bool.and_eq_true, Bool.and_eq_true] at h
    obtain ⟨hcard, hewf, hsp⟩ := h
    rw [recordWf, Bool.and_eq_true, Bool.and_eq_true, Bool.and_eq_true] at hcard
    obtain ⟨⟨⟨hv, hall⟩, hdrop⟩, hnd⟩ := hcard
    rw [show flushCur card (some e) = card.insert e from rfl]
    rw [recordWf]
    rw [show (card.insert e).version = card.version from rfl]
    rw [show (card.insert e).content = insertEntry card.content e from rfl]
    rw [insertEntry]
    split
    · rw [hv, hall, hdrop, hnd]; rfl
    · rename_i hnotmem
      rw [Bool.and_eq_true, Bool.and_eq_true, Bool.and_eq_true]
      refine ⟨⟨⟨hv, ?_⟩, ?_⟩, ?_⟩
      · rw [List.all_append, hall, List.all_cons, hewf]; rfl
      · by_cases hcc : card.content = []
        · rw [hcc]; rfl
        · rw [List.drop_append_of_le_length (by
            have := List.length_pos.mpr hcc; omega)]
          rw [List.all_append, hdrop, List.all_cons]
          rw [Bool.or_eq_true, decide_eq_true_eq] at hsp
          rcases hsp with hsp | hsp
          · exact absurd hsp hcc
          · rw [hsp]; rfl
      · rw [decide_eq_true_eq] at hnd ⊢
        rw [List.nodup_append]
        exact ⟨hnd, List.nodup_singleton e,
          fun a ha hb => hnotmem ((List.mem_singleton.mp hb) ▸ ha)⟩

/-- A space-led non-terminator line keeps the parser state well formed by
extending the pending entry. -/
theorem stWf_extendCur (card : Vcard) (cur : Option VcardEntry) (l : Line)
    (hst : stWf (.inRecord card cur) = true) (hne : l ≠ "END:VCARD".data)
    (hsl : startsWithChar l ' ' = true) :
    stWf (.inRecord card (some (extendCur cur l))) = true := by
  cases cur with
  | none =>
    rw [stWf, Bool.and_eq_true] at hst
    obtain ⟨hcard, hemp⟩ := hst
    rw [stWf, Bool.and_eq_true]
    refine ⟨hcard, ?_⟩
    rw [show extendCur none l = ⟨[l]⟩ from rfl]
    rw [Bool.and_eq_true, Bool.or_eq_true]
    exact ⟨by simp [entryWf, hne], .inl hemp⟩
  | some e =>
    rw [stWf, Bool.and_eq_true, Bool.and_eq_true] at hst
    obtain ⟨hcard, hewf, hsp⟩ := hst
    rw [entryWf, Bool.and_eq_true, Bool.and_eq_true, decide_eq_true_eq, decide_eq_true_eq]
      at hewf
    obtain ⟨⟨hnonnil, hhead⟩, hconts⟩ := hewf
    cases hel : e.lines with
    | nil => exact absurd hel hnonnil
    | cons x xs =>
      rw [stWf, Bool.and_eq_true]
      refine ⟨hcard, ?_⟩
      rw [show extendCur (some e) l = ⟨e.lines ++ [l]⟩ from rfl]
      rw [Bool.and_eq_true]
      constructor
      · rw [entryWf, Bool.and_eq_true, Bool.and_eq_true, decide_eq_true_eq, decide_eq_true_eq]
        refine ⟨⟨by simp [hel], ?_⟩, ?_⟩
        · rw [hel] at hhead ⊢
          exact hhead
        · rw [hel] at hconts ⊢
          show ((xs ++ [l]).all fun y => startsWithChar y ' ') = true
          rw [List.all_append]
          rw [show ((x :: xs).drop 1).all (fun y => startsWithChar y ' ')
              = (xs.all fun y => startsWithChar y ' ') from rfl] at hconts
          rw [hconts, List.all_cons, hsl]
          rfl
      · rw [show headNonSpace ⟨e.lines ++ [l]⟩ = headNonSpace e by
          rw [headNonSpace, headNonSpace, hel]; rfl]
        exact hsp

/-- A non-space non-terminator line keeps the parser state well formed by
completing the pending entry and starting a new one. -/
theorem stWf_newEntry (card : Vcard) (cur : Option VcardEntry) (l : Line)
    (hst : stWf (.inRecord card cur) = true) (hne : l ≠ "END:VCARD".data)
    (hsp : startsWithChar l ' ' = false) :
    stWf (.inRecord (flushCur card cur) (some ⟨[l]⟩)) = true := by
  rw [stWf, Bool.and_eq_true]
  refine ⟨flushCur_wf card cur hst, ?_⟩
  rw [Bool.and_eq_true, Bool.or_eq_true]
  exact ⟨by simp [entryWf, hne], .inr (by rw [headNonSpace]; simp [hsp])⟩

/-- Every record the parser outputs is well formed. -/
theorem parse_wf (ls : List Line) :
    ∀ (cards : List Vcard) (st : PState) (rs : List Vcard),
    cards.all recordWf = true → stWf st = true →
    parseLines cards st ls = .ok rs → rs.all recordWf = true := by
  induction ls with
  | nil =>
    intro cards st rs hc hst h
    cases st with
    | expectBegin =>
      rw [parseLines] at h
      injection h with h
      rw [← h]
      exact hc
    | expectVersion => simp [parseLines] at h
    | inRecord card cur => simp [parseLines] at h
  | cons l rest ih =>
    intro cards st rs hc hst h
    cases st with
    | expectBegin =>
      by_cases hl : l = "BEGIN:VCARD".data
      · rw [parseLines, if_pos hl] at h
        exact ih cards .expectVersion rs hc rfl h
      · rw [parseLines, if_neg hl] at h; cases h
    | expectVersion =>
      by_cases hl : startsWithStr l "VERSION:" = true
      · rw [parseLines, if_pos hl] at h
        exact ih cards (.inRecord ⟨l, []⟩ none) rs hc (by simp [stWf, recordWf, hl]) h
      · rw [parseLines, if_neg hl] at h; cases h
    | inRecord card cur =>
      by_cases hend : l = "END:VCARD".data
      · rw [parseLines, if_pos hend] at h
        refine ih _ .expectBegin rs ?_ rfl h
        rw [List.all_append, hc, List.all_cons, flushCur_wf card cur hst]
        rfl
      · rw [parseLines, if_neg hend] at h
        by_cases hsp : startsWithChar l ' ' = true
        · rw [if_pos hsp] at h
          exact ih cards _ rs hc (stWf_extendCur card cur l hst hend hsp) h
        · rw [if_neg hsp] at h
          exact ih cards _ rs hc
            (stWf_newEntry card cur l hst hend (Bool.not_eq_true _ ▸ hsp)) h

/-- C8: round trip — whenever parsing succeeds, serializing the parsed
records and parsing the serialized lines again yields exactly the same
records (same versions and entry sets, order included). -/
theorem claim_C8 (ls : List Line) (rs : List Vcard) (h : parseAll ls = .ok rs) :
    parseAll (serialize rs) = .ok rs := by
  have hwf : rs.all recordWf = true :=
    parse_wf ls [] .expectBegin rs rfl rfl h
  rw [parseAll, parse_serialize_all rs [] hwf, List.nil_append]

/-- C8, witness: round trip on a concrete two-entry record. -/
theorem claim_C8_witness :
    parseAll (serialize [⟨"VERSION:3.0".data, [⟨["N:Doe".data, " x".data]⟩, ⟨["TEL:1".data]⟩]⟩])
      = .ok [⟨"VERSION:3.0".data, [⟨["N:Doe".data, " x".data]⟩, ⟨["TEL:1".data]⟩]⟩] :=
  claim_C8 (rustLines "BEGIN:VCARD\nVERSION:3.0\nN:Doe\n x\nTEL:1\nEND:VCARD")
    [⟨"VERSION:3.0".data, [⟨["N:Doe".data, " x".data]⟩, ⟨["TEL:1".data]⟩]⟩] (by decide)

/-- C9: the input `BEGIN:VCARD\nEND:VCARD`, whose second line does not
start with `VERSION:`, fails with a Format error (hence no records are
produced). -/
theorem claim_C9 :
    parse "BEGIN:VCARD\nEND:VCARD" = .error PError.format := by
  decide

/-- C10: the merge-key lookup matches any entry whose first line starts
with `N`, not only the name property: two distinct records that contain
no `N:` name entry but share the entry `["NOTE:x"]` both use that entry
as merge key, appear in the output, and are merged into one record. -/
theorem claim_C10 :
    ∃ r1 r2,
      parse "BEGIN:VCARD\nVERSION:3.0\nNOTE:x\nEND:VCARD\nBEGIN:VCARD\nVERSION:3.0\nNOTE:x\nTEL:1\nEND:VCARD"
          = .ok [r1, r2] ∧
      r1 ≠ r2 ∧
      (∀ e ∈ r1.content, startsWithStr (e.lines.headD []) "N:" = false) ∧
      (∀ e ∈ r2.content, startsWithStr (e.lines.headD []) "N:" = false) ∧
      r1.get "N" = some ⟨["NOTE:x".data]⟩ ∧
      r2.get "N" = some ⟨["NOTE:x".data]⟩ ∧
      dedup [r1, r2]
          = [(⟨["NOTE:x".data]⟩, ⟨"VERSION:3.0".data, [⟨["NOTE:x".data]⟩, ⟨["TEL:1".data]⟩]⟩)] :=
  ⟨⟨"VERSION:3.0".data, [⟨["NOTE:x".data]⟩]⟩,
    ⟨"VERSION:3.0".data, [⟨["NOTE:x".data]⟩, ⟨["TEL:1".data]⟩]⟩,
    by decide, by decide, by decide, by decide, by decide, by decide, by decide⟩

end Vcfdedup
